import Mathlib

/-!
Verification development for the tile-slicing and tile-assembly pipeline of the
PLATEAU-GIS-Converter repository (`nusamai/src/sink/cesiumtiles/`).

The Rust source is shallowly embedded in Lean:
* `f64` values of the clip sweep are modelled by `ℚ` (all operations performed by
  the code on the inputs considered here are exact in `f64`);
* `i16`/`i32`/`u32` machine integers are modelled by `ℤ`/`ℕ` with explicit
  wrapping (`wrap16`), saturating casts (`satCast16`, `natCastU32`) where the
  source performs `as` casts;
* panics (assertion failures, `todo!()`) and `Result` propagation are modelled
  by `Except`;
* the `HashMap` accumulating per-tile output is modelled by an association list
  with `entry-or-default` update semantics (iteration order is irrelevant to
  every statement below).
-/

/-! ### TileIdCodec -/

/-- Modelled from the spec: the tile-id codec (`TileIdMethod::Hilbert`,
`zxy_to_id`/`id_to_zxy`) lives in the `nusamai-mvt` crate, which is not among
the provided source files.  Per the spec (§4.1) it is a bijective, sortable
64-bit encoding of `(zoom, x, y)` via a Hilbert space-filling curve.  This is
the standard recursive Hilbert enumeration of the `2^z × 2^z` grid: the four
quadrants are visited in the order lower-left (transposed), upper-left,
upper-right, lower-right (rotated). -/
def hilbert_xy2d : Nat → Nat → Nat → Nat
  | 0, _, _ => 0
  | z+1, x, y =>
    if x < 2^z then
      if y < 2^z then hilbert_xy2d z y x
      else 2^z * 2^z + hilbert_xy2d z x (y - 2^z)
    else
      if y < 2^z then 3*(2^z * 2^z) + hilbert_xy2d z (2^z - 1 - y) (2*2^z - 1 - x)
      else 2*(2^z * 2^z) + hilbert_xy2d z (x - 2^z) (y - 2^z)

/-- Modelled from the spec: inverse of `hilbert_xy2d` (the `d2xy` direction of
the Hilbert codec of `nusamai-mvt`, not among the provided sources). -/
def hilbert_d2xy : Nat → Nat → Nat × Nat
  | 0, _ => (0, 0)
  | z+1, d =>
    if d / (2^z * 2^z) = 0 then
      ((hilbert_d2xy z (d % (2^z * 2^z))).2, (hilbert_d2xy z (d % (2^z * 2^z))).1)
    else if d / (2^z * 2^z) = 1 then
      ((hilbert_d2xy z (d % (2^z * 2^z))).1, (hilbert_d2xy z (d % (2^z * 2^z))).2 + 2^z)
    else if d / (2^z * 2^z) = 2 then
      ((hilbert_d2xy z (d % (2^z * 2^z))).1 + 2^z, (hilbert_d2xy z (d % (2^z * 2^z))).2 + 2^z)
    else
      (2*2^z - 1 - (hilbert_d2xy z (d % (2^z * 2^z))).2, 2^z - 1 - (hilbert_d2xy z (d % (2^z * 2^z))).1)

/-- Modelled from the spec: number of tile ids consumed by all zoom levels
below `z`, i.e. the id offset at which zoom `z` starts. -/
def tileOffset : Nat → Nat
  | 0 => 0
  | z+1 => tileOffset z + 4^z

/-- Modelled from the spec: `TileIdMethod::Hilbert.zxy_to_id`. -/
def zxy_to_id (z x y : Nat) : Nat := tileOffset z + hilbert_xy2d z x y

/-- Zoom level of a tile id: the largest `z < 32` whose offset is at most the id. -/
def idZoom (id : Nat) : Nat :=
  (List.range 32).foldl (fun acc w => if tileOffset w ≤ id then w else acc) 0

/-- Modelled from the spec: `TileIdMethod::Hilbert.id_to_zxy`. -/
def id_to_zxy (id : Nat) : Nat × Nat × Nat :=
  (idZoom id, (hilbert_d2xy (idZoom id) (id - tileOffset (idZoom id))).1,
    (hilbert_d2xy (idZoom id) (id - tileOffset (idZoom id))).2)

/-! ### ExternalSortStage (feature_sorting_stage, mod.rs lines 178-211) -/

/-- The `SerializedSlicedFeature` record: a 64-bit tile id plus an opaque serialized body. -/
structure SSFeature where
  tile_id : Nat
  body : List Nat
deriving DecidableEq

/-- One insertion step of sorting by `tile_id` ascending (the comparator
`a.tile_id.cmp(&b.tile_id)` passed to the external sorter; ties may land in any
order, which matches the unspecified tie-break of the spec). -/
def insertFeat (r : SSFeature) : List SSFeature → List SSFeature
  | [] => [r]
  | s :: t => if r.tile_id ≤ s.tile_id then r :: s :: t else s :: insertFeat r t

/-- Sort the stream by `tile_id` ascending (models `sorter.sort_by`). -/
def sortFeats : List SSFeature → List SSFeature
  | [] => []
  | r :: rs => insertFeat r (sortFeats rs)

/-- Group-by state machine: emit the accumulated run whenever the key changes
(the `group_by(|f| f.tile_id)` loop of `feature_sorting_stage`). -/
def groupRunsGo (k : Nat) (cur : List SSFeature) : List SSFeature → List (Nat × List SSFeature)
  | [] => [(k, cur.reverse)]
  | s :: rest =>
    if s.tile_id = k then groupRunsGo k (s :: cur) rest
    else (k, cur.reverse) :: groupRunsGo s.tile_id [s] rest

/-- Group a stream into contiguous runs of equal `tile_id`. -/
def groupRuns : List SSFeature → List (Nat × List SSFeature)
  | [] => []
  | r :: rs => groupRunsGo r.tile_id [r] rs

/-- The sorting stage (success path): external sort by `tile_id`, then group
contiguous runs and emit `(tile_id, features)` batches. -/
def feature_sorting_stage (input : List SSFeature) : List (Nat × List SSFeature) :=
  groupRuns (sortFeats input)

/-- An I/O error from the external sorter (spill write/read failure). -/
structure IOErr where
  code : Nat
deriving DecidableEq

/-- Consume the merged stream with the group-emission loop, aborting with the
error at the first failed item (the `map(Result::unwrap)` panic in
`feature_sorting_stage`): a group is emitted only once its end is observed, so
an error while pulling discards the in-progress group and halts the stage. -/
def consumeSortedGo (k : Nat) (cur : List SSFeature) :
    List (Except IOErr SSFeature) → List (Nat × List SSFeature) × Option IOErr
  | [] => ([(k, cur.reverse)], none)
  | .error e :: _ => ([], some e)
  | .ok s :: rest =>
    if s.tile_id = k then consumeSortedGo k (s :: cur) rest
    else
      ((k, cur.reverse) :: (consumeSortedGo s.tile_id [s] rest).1,
        (consumeSortedGo s.tile_id [s] rest).2)

/-- Consume the sorted stream of `Result`-wrapped records. -/
def consumeSorted :
    List (Except IOErr SSFeature) → List (Nat × List SSFeature) × Option IOErr
  | [] => ([], none)
  | .error e :: _ => ([], some e)
  | .ok r :: rest => consumeSortedGo r.tile_id [r] rest

/-- The whole sorting stage including the external sorter's failure modes:
`sort_by(...).unwrap()` panics if the sort (spill) itself failed, and the merge
stream's per-item `Result`s are unwrapped while grouping.  A `some` second
component models the stage dying by panic with that error. -/
def feature_sorting_stage_run
    (sorted : Except IOErr (List (Except IOErr SSFeature))) :
    List (Nat × List SSFeature) × Option IOErr :=
  match sorted with
  | .error e => ([], some e)
  | .ok stream => consumeSorted stream

/-- Decides whether any spill/merge I/O error occurs in the sorter's output. -/
def hasIOError : Except IOErr (List (Except IOErr SSFeature)) → Bool
  | .error _ => true
  | .ok s => s.any (fun x => match x with | .error _ => true | .ok _ => false)

/-! ### PolygonClipper (slice.rs, slice_polygon) -/

/-- A 2D point of the clip sweep; `f64` modelled by `ℚ`. -/
abbrev QPt := ℚ × ℚ

abbrev QRing := List QPt

/-- A polygon: first ring is the exterior, the rest are interior holes. -/
abbrev QPoly := List QRing

/-- A tile-local integer point (`[i16; 2]`). -/
abbrev IPt := ℤ × ℤ

abbrev IRing := List IPt

/-- Modelled from the spec: `MultiPolygon2<i16>` of the `nusamai-geometry`
crate (not among the provided sources): a list of polygons, each a list of
rings, ring 0 exterior. -/
abbrev MPoly := List (List IRing)

abbrev TileKey := Nat × Nat × Nat

abbrev TileMap := List (TileKey × MPoly)

/-- The consecutive pairs `(p_i, p_{i+1})` of a ring closed back to its first
point (`ring.iter_closed()` folded pairwise). -/
def closedPairs {α : Type} (r : List α) : List (α × α) :=
  match r with
  | [] => []
  | p :: _ => r.zip (r.drop 1 ++ [p])

/-- One clip sweep of a ring against the vertical strip `[k1, k2]`
(slice.rs lines 123-155): keep in-range points, insert exact
linear-interpolation crossing points on both entering and leaving edges. -/
def clipRingX (k1 k2 : ℚ) (r : QRing) : QRing :=
  (closedPairs r).foldl (fun buf ab =>
    let buf2 :=
      if ab.1.1 < k1 then
        if ab.2.1 > k1 then
          buf ++ [(k1, (ab.2.2 - ab.1.2) * (k1 - ab.1.1) / (ab.2.1 - ab.1.1) + ab.1.2)]
        else buf
      else if ab.1.1 > k2 then
        if ab.2.1 < k2 then
          buf ++ [(k2, (ab.2.2 - ab.1.2) * (k2 - ab.1.1) / (ab.2.1 - ab.1.1) + ab.1.2)]
        else buf
      else buf ++ [ab.1]
    if ab.2.1 < k1 ∧ ab.1.1 > k1 then
      buf2 ++ [(k1, (ab.2.2 - ab.1.2) * (k1 - ab.1.1) / (ab.2.1 - ab.1.1) + ab.1.2)]
    else if ab.2.1 > k2 ∧ ab.1.1 < k2 then
      buf2 ++ [(k2, (ab.2.2 - ab.1.2) * (k2 - ab.1.1) / (ab.2.1 - ab.1.1) + ab.1.2)]
    else buf2) []

/-- The same clip sweep along the Y axis (slice.rs lines 192-224). -/
def clipRingY (k1 k2 : ℚ) (r : QRing) : QRing :=
  (closedPairs r).foldl (fun buf ab =>
    let buf2 :=
      if ab.1.2 < k1 then
        if ab.2.2 > k1 then
          buf ++ [((ab.2.1 - ab.1.1) * (k1 - ab.1.2) / (ab.2.2 - ab.1.2) + ab.1.1, k1)]
        else buf
      else if ab.1.2 > k2 then
        if ab.2.2 < k2 then
          buf ++ [((ab.2.1 - ab.1.1) * (k2 - ab.1.2) / (ab.2.2 - ab.1.2) + ab.1.1, k2)]
        else buf
      else buf ++ [ab.1]
    if ab.2.2 < k1 ∧ ab.1.2 > k1 then
      buf2 ++ [((ab.2.1 - ab.1.1) * (k1 - ab.1.2) / (ab.2.2 - ab.1.2) + ab.1.1, k1)]
    else if ab.2.2 > k2 ∧ ab.1.2 < k2 then
      buf2 ++ [((ab.2.1 - ab.1.1) * (k2 - ab.1.2) / (ab.2.2 - ab.1.2) + ab.1.1, k2)]
    else buf2) []

/-- Clip every non-empty ring of a polygon along X (empty source rings are
skipped with `continue`, so they do not occupy a ring slot). -/
def clipPolyX (k1 k2 : ℚ) (p : QPoly) : QPoly :=
  p.foldl (fun acc r => if r = [] then acc else acc ++ [clipRingX k1 k2 r]) []

/-- Truncation toward zero: the rounding of Rust's float-to-integer `as` cast. -/
def ratTrunc (q : ℚ) : ℤ := if 0 ≤ q then ⌊q⌋ else ⌈q⌉

/-- Rust's saturating `f64 as i16` cast. -/
def satCast16 (q : ℚ) : ℤ := max (-32768) (min 32767 (ratTrunc q))

/-- Quantization to tile-local integer coordinates (slice.rs lines 229-233):
`((coord - tile_origin) * extent + 0.5) as i16`. -/
def quantizePt (extent xi yi : Nat) (p : QPt) : IPt :=
  (satCast16 ((p.1 - (xi : ℚ)) * (extent : ℚ) + 1/2),
    satCast16 ((p.2 - (yi : ℚ)) * (extent : ℚ) + 1/2))

/-- Remove the closing point if the ring ends where it starts
(slice.rs lines 236-240). -/
def dropClosing (l : IRing) : IRing :=
  if 2 ≤ l.length ∧ l.head? = l.getLast? then l.dropLast else l

/-- Two's-complement wrap-around of `i16` subtraction (release-mode Rust). -/
def wrap16 (z : ℤ) : ℤ := (z + 32768) % 65536 - 32768

/-- The keep-condition of the simplification loop (slice.rs lines 253-271): a
window's middle point is pushed unless it duplicates its predecessor, or it
differs from its successor while the two cross-product terms have equal
absolute value. -/
def keepPoint (p c n : IPt) : Bool :=
  (p != c) &&
    ((c == n) ||
      ((wrap16 (n.2 - p.2) * wrap16 (c.1 - p.1)).natAbs
        != (wrap16 (c.2 - p.2) * wrap16 (n.1 - p.1)).natAbs))

def windows3 {α : Type} : List α → List (α × α × α)
  | a :: b :: c :: rest => (a, b, c) :: windows3 (b :: c :: rest)
  | _ => []

/-- The simplification pass (slice.rs lines 246-272): first point, the kept
middle points of each 3-window of the original buffer, then the last point. -/
def simplifyRing (l : IRing) : IRing :=
  match l with
  | [] => []
  | a :: _ =>
    a :: (((windows3 l).filter (fun w => keepPoint w.1 w.2.1 w.2.2)).map (fun w => w.2.1))
      ++ [l.getLastD a]

/-- Modelled from the spec: `LineString2::signed_ring_area` of the
`nusamai-geometry` crate (not among the provided sources).  Per spec §3 the
exterior ring must be "front-facing / clockwise-positive ... after reversal",
so the signed area is taken positive for clockwise rings (y-up): half the sum
of `(x_b - x_a) * (y_a + y_b)` over the closed edge list. -/
def signedRingArea (r : IRing) : ℚ :=
  ((((closedPairs r).map (fun ab => (ab.2.1 - ab.1.1) * (ab.1.2 + ab.2.2))).sum : ℤ) : ℚ) / 2

/-- Per-ring post-processing of a Y-clipped cell ring (slice.rs lines 226-277):
quantize, drop the closing point, reject rings that then have fewer than 3
points, simplify, reverse the winding.  Returns `none` for the `continue` of
the too-short check. -/
def postProcessRing (extent xi yi : Nat) (clipped : QRing) : Option IRing :=
  if (dropClosing (clipped.map (quantizePt extent xi yi))).length < 3 then none
  else some ((simplifyRing (dropClosing (clipped.map (quantizePt extent xi yi)))).reverse)

/-- Modelled from the spec: `MultiPolygon2::add_exterior` starts a new polygon. -/
def mpolyAddExterior (mp : MPoly) (r : IRing) : MPoly := mp ++ [[r]]

/-- Modelled from the spec: `MultiPolygon2::add_interior` appends a hole ring
to the current (last) polygon. -/
def mpolyAddInterior (mp : MPoly) (r : IRing) : MPoly :=
  match mp with
  | [] => [[r]]
  | _ => mp.dropLast ++ [mp.getLastD [] ++ [r]]

/-- The per-cell ring loop (slice.rs lines 186-292), with ring indices `ri`
from the enumeration of the X-sliced polygon's rings: clip along Y, post-process,
`break` out of the ring loop when the exterior ring's signed area is below 4
square subpixels, otherwise accumulate into the cell's multipolygon. -/
def processCellRings (extent : Nat) (k1 k2 : ℚ) (xi yi : Nat) :
    List (Nat × QRing) → MPoly → MPoly
  | [], mp => mp
  | (ri, ring) :: rest, mp =>
    if ring = [] then processCellRings extent k1 k2 xi yi rest mp
    else
      match postProcessRing extent xi yi (clipRingY k1 k2 ring) with
      | none => processCellRings extent k1 k2 xi yi rest mp
      | some r =>
        if ri = 0 ∧ signedRingArea r < 4 then mp
        else
          processCellRings extent k1 k2 xi yi rest
            (if ri = 0 then mpolyAddExterior mp r else mpolyAddInterior mp r)

/-- Rust's saturating `f64 as u32` cast applied to an integral value. -/
def natCastU32 (z : ℤ) : Nat := (min (max z 0) 4294967295).toNat

/-- The tile-index range spanned by a coordinate list:
`min.floor() as u32 .. max.ceil() as u32` (slice.rs lines 98-106, 165-173);
an empty list yields an empty range (the `f64::MAX/MIN` fold sentinels). -/
def rangeOfCoords (l : List ℚ) : List Nat :=
  match l with
  | [] => []
  | q :: rest =>
    (List.range (natCastU32 ⌈rest.foldl max q⌉ - natCastU32 ⌊rest.foldl min q⌋)).map
      (fun i => natCastU32 ⌊rest.foldl min q⌋ + i)

/-- The `.rings().enumerate()` indexing of a polygon's rings. -/
def enumRings (i : Nat) : QPoly → List (Nat × QRing)
  | [] => []
  | r :: rs => (i, r) :: enumRings (i+1) rs

def getTile (m : TileMap) (k : TileKey) : MPoly :=
  match m with
  | [] => []
  | kv :: rest => if kv.1 = k then kv.2 else getTile rest k

def setTile (m : TileMap) (k : TileKey) (v : MPoly) : TileMap :=
  match m with
  | [] => [(k, v)]
  | kv :: rest => if kv.1 = k then (k, v) :: rest else kv :: setTile rest k v

/-- The function `slice_polygon` (slice.rs lines 83-295): two-pass axis-aligned slicing of
one scaled polygon into the tile grid, accumulating per-tile multipolygons
(`out.entry((zoom, xi, yi)).or_default()` modelled by `getTile`/`setTile`). -/
def slice_polygon (zoom extent buffer : Nat) (poly : QPoly) (out : TileMap) : TileMap :=
  match poly with
  | [] => out
  | ext :: _ =>
    if ext = [] then out
    else
      (rangeOfCoords (ext.map Prod.fst)).foldl (fun out1 xi =>
        (match clipPolyX ((xi : ℚ) - (buffer : ℚ) / (extent : ℚ))
            (((xi : ℚ) + 1) + (buffer : ℚ) / (extent : ℚ)) poly with
          | [] => ([] : List Nat)
          | xext :: _ => rangeOfCoords (xext.map Prod.snd)).foldl
          (fun out2 yi =>
            setTile out2 (zoom, xi, yi)
              (processCellRings extent ((yi : ℚ) - (buffer : ℚ) / (extent : ℚ))
                (((yi : ℚ) + 1) + (buffer : ℚ) / (extent : ℚ)) xi yi
                (enumRings 0 (clipPolyX ((xi : ℚ) - (buffer : ℚ) / (extent : ℚ))
                  (((xi : ℚ) + 1) + (buffer : ℚ) / (extent : ℚ)) poly))
                (getTile out2 (zoom, xi, yi)))) out1) out

/-! ### GeometrySlicingStage (slice.rs, slice_cityobj_geoms) -/

/-- The geometry kind (`nusamai_citygml::geometry::GeometryType`) restricted to the variants
matched by `slice_cityobj_geoms`. -/
inductive GeomType
  | solid
  | surface
  | triangle
  | curve
  | point
deriving DecidableEq

/-- A geometry entry: kind plus an index range into the shared multipolygon
buffer. -/
structure GeomEntry where
  ty : GeomType
  pos : Nat
  len : Nat
deriving DecidableEq

/-- The slice of an `Entity` that `slice_cityobj_geoms` reads: the (already
denormalized) multipolygon buffer, whether the root value is a feature object
(the two `let ... else return Ok(())` guards), and the geometry entries. -/
structure EntityModel where
  multipolygon : List QPoly
  isFeature : Bool
  geometries : List GeomEntry

/-- How a run of `slice_cityobj_geoms` can die: the `assert!` on the zoom
range, or the `todo!()` panic on an unsupported geometry kind. -/
inductive SliceErr
  | assertViolation
  | unsupported (t : GeomType)
deriving DecidableEq

/-- Modelled from the spec: the unscaled polygon area used by the
tiny-polygon pre-filter.  The code that computes `area` (and denormalizes
`poly`) sits in lines of `slice_cityobj_geoms` missing from the provided
sources; spec §4.3 says "skip the polygon at that zoom if its unscaled area is
below a zoom-dependent visibility threshold", so the absolute shoelace area of
the exterior ring is used. -/
def polyAbsArea (p : QPoly) : ℚ :=
  match p with
  | [] => 0
  | ext :: _ =>
    |(((closedPairs ext).map (fun ab => ab.1.1 * ab.2.2 - ab.2.1 * ab.1.2)).sum)| / 2

def scalePoly (s : ℚ) (p : QPoly) : QPoly :=
  p.map (fun r => r.map (fun c => (c.1 * s, c.2 * s)))

/-- The per-polygon zoom loop (slice.rs lines 48-60): for each zoom in
`[min_z, max_z]`, skip the polygon when smaller than 4 square subpixels,
otherwise scale by `2^zoom` and slice. -/
def processPolyZooms (min_z max_z max_detail extent buffer : Nat) (p : QPoly)
    (out : TileMap) : TileMap :=
  (List.range (max_z + 1 - min_z)).foldl (fun acc i =>
    if polyAbsArea p * ((4 : ℚ)^((min_z + i) + max_detail)) < 4 then acc
    else slice_polygon (min_z + i) extent buffer (scalePoly ((2 : ℚ)^(min_z + i)) p) acc) out

/-- All polygons of one geometry entry's index range (`iter_range`). -/
def processEntry (min_z max_z max_detail extent buffer : Nat) (mpolys : List QPoly)
    (e : GeomEntry) (out : TileMap) : TileMap :=
  ((mpolys.drop e.pos).take e.len).foldl (fun acc p =>
    processPolyZooms min_z max_z max_detail extent buffer p acc) out

/-- The geometry-entry loop (slice.rs lines 42-69): `Solid`, `Surface` and
`Triangle` entries are sliced; `Curve` and `Point` hit `todo!()` — a panic,
modelled as an explicit error. -/
def processEntries (min_z max_z max_detail extent buffer : Nat) (mpolys : List QPoly) :
    List GeomEntry → TileMap → Except SliceErr TileMap
  | [], out => .ok out
  | e :: rest, out =>
    match e.ty with
    | .solid =>
        processEntries min_z max_z max_detail extent buffer mpolys rest
          (processEntry min_z max_z max_detail extent buffer mpolys e out)
    | .surface =>
        processEntries min_z max_z max_detail extent buffer mpolys rest
          (processEntry min_z max_z max_detail extent buffer mpolys e out)
    | .triangle =>
        processEntries min_z max_z max_detail extent buffer mpolys rest
          (processEntry min_z max_z max_detail extent buffer mpolys e out)
    | .curve => .error (.unsupported .curve)
    | .point => .error (.unsupported .point)

/-- The function `slice_cityobj_geoms` (slice.rs lines 12-81): assert the zoom range, early
return on an empty store or a non-feature root, slice every entry, then emit
the non-empty tiles (the callback `f` is modelled by returning the tile list). -/
def slice_cityobj_geoms (obj : EntityModel) (min_z max_z max_detail buffer_pixels : Nat) :
    Except SliceErr TileMap :=
  if max_z < min_z then .error .assertViolation
  else if obj.multipolygon = [] then .ok []
  else if obj.isFeature = false then .ok []
  else
    match processEntries min_z max_z max_detail (2^max_detail)
        (2^max_detail * buffer_pixels / 256) obj.multipolygon obj.geometries [] with
    | .error e => .error e
    | .ok tiled => .ok (tiled.filter (fun kv => !kv.2.isEmpty))

/-! ### C4: the simplification keep-condition -/

/-- The exact integer cross product of the vectors `prev → curr` and
`prev → next` (zero iff the three points are collinear). -/
def crossZ (p c n : IPt) : ℤ := (c.1 - p.1) * (n.2 - p.2) - (c.2 - p.2) * (n.1 - p.1)

/-- Checks that a tile's output is a single polygon with a single 4-point ring
whose points are exactly the four corners of the full tile-local extent. -/
def isFullSquareTile (extent : ℤ) (mp : MPoly) : Bool :=
  match mp with
  | [[r]] => (r.length == 4) && r.contains (0, 0) && r.contains (extent, 0)
      && r.contains (extent, extent) && r.contains (0, extent)
  | _ => false

/-! ### Theorems -/

theorem two_pow_mul_self (z : Nat) : 2^z * 2^z = 4^z := by
  have : (4:Nat) = 2 * 2 := rfl
  rw [this, Nat.mul_pow]

theorem hilbert_xy2d_lt : ∀ z x y, x < 2^z → y < 2^z → hilbert_xy2d z x y < 4^z := by
  intro z
  induction z with
  | zero => intro x y _ _; simp [hilbert_xy2d]
  | succ z ih =>
    intro x y hx hy
    have hh : 2^z * 2^z = 4^z := two_pow_mul_self z
    have h4 : (4:Nat)^(z+1) = 4 * 4^z := by rw [pow_succ, Nat.mul_comm]
    have h2 : (2:Nat)^(z+1) = 2 * 2^z := by rw [pow_succ, Nat.mul_comm]
    have hpos : 0 < 2^z := Nat.pos_pow_of_pos z (by decide)
    simp only [hilbert_xy2d]
    by_cases hxh : x < 2^z
    · by_cases hyh : y < 2^z
      · simp only [if_pos hxh, if_pos hyh]
        have := ih y x hyh hxh
        omega
      · simp only [if_pos hxh, if_neg hyh]
        have hyb : y - 2^z < 2^z := by omega
        have := ih x (y - 2^z) hxh hyb
        omega
    · by_cases hyh : y < 2^z
      · simp only [if_neg hxh, if_pos hyh]
        have ha : 2^z - 1 - y < 2^z := by omega
        have hb : 2*2^z - 1 - x < 2^z := by omega
        have := ih (2^z - 1 - y) (2*2^z - 1 - x) ha hb
        omega
      · simp only [if_neg hxh, if_neg hyh]
        have hxb : x - 2^z < 2^z := by omega
        have hyb : y - 2^z < 2^z := by omega
        have := ih (x - 2^z) (y - 2^z) hxb hyb
        omega

theorem hilbert_roundtrip :
    ∀ z x y, x < 2^z → y < 2^z → hilbert_d2xy z (hilbert_xy2d z x y) = (x, y) := by
  intro z
  induction z with
  | zero =>
    intro x y hx hy
    have h1 : (2 : Nat)^0 = 1 := rfl
    have hx0 : x = 0 := by omega
    have hy0 : y = 0 := by omega
    subst hx0
    subst hy0
    rfl
  | succ z ih =>
    intro x y hx hy
    have h2 : (2:Nat)^(z+1) = 2 * 2^z := by rw [pow_succ, Nat.mul_comm]
    have hpos : 0 < 2^z * 2^z := by
      have : 0 < 2^z := Nat.pos_pow_of_pos z (by decide)
      exact Nat.mul_pos this this
    simp only [hilbert_xy2d]
    by_cases hxh : x < 2^z
    · by_cases hyh : y < 2^z
      · simp only [if_pos hxh, if_pos hyh]
        have hlt : hilbert_xy2d z y x < 2^z * 2^z := by
          rw [two_pow_mul_self]; exact hilbert_xy2d_lt z y x hyh hxh
        simp only [hilbert_d2xy]
        rw [Nat.mod_eq_of_lt hlt, Nat.div_eq_of_lt hlt, ih y x hyh hxh]
        simp
      · simp only [if_pos hxh, if_neg hyh]
        have hyb : y - 2^z < 2^z := by omega
        have hlt : hilbert_xy2d z x (y - 2^z) < 2^z * 2^z := by
          rw [two_pow_mul_self]; exact hilbert_xy2d_lt z x (y - 2^z) hxh hyb
        have hmod : (2^z * 2^z + hilbert_xy2d z x (y - 2^z)) % (2^z * 2^z)
            = hilbert_xy2d z x (y - 2^z) := by
          rw [Nat.add_mod_left, Nat.mod_eq_of_lt hlt]
        have hdiv : (2^z * 2^z + hilbert_xy2d z x (y - 2^z)) / (2^z * 2^z) = 1 := by
          rw [Nat.add_div_left _ hpos, Nat.div_eq_of_lt hlt]
        simp only [hilbert_d2xy]
        rw [hmod, hdiv, ih x (y - 2^z) hxh hyb]
        simp only [Prod.mk.injEq]
        norm_num
        omega
    · by_cases hyh : y < 2^z
      · simp only [if_neg hxh, if_pos hyh]
        have ha : 2^z - 1 - y < 2^z := by omega
        have hb : 2*2^z - 1 - x < 2^z := by omega
        have hlt : hilbert_xy2d z (2^z - 1 - y) (2*2^z - 1 - x) < 2^z * 2^z := by
          rw [two_pow_mul_self]; exact hilbert_xy2d_lt z _ _ ha hb
        have hmod : (3*(2^z * 2^z) + hilbert_xy2d z (2^z - 1 - y) (2*2^z - 1 - x)) % (2^z * 2^z)
            = hilbert_xy2d z (2^z - 1 - y) (2*2^z - 1 - x) := by
          rw [Nat.mul_comm 3 (2^z * 2^z), Nat.mul_add_mod, Nat.mod_eq_of_lt hlt]
        have hdiv : (3*(2^z * 2^z) + hilbert_xy2d z (2^z - 1 - y) (2*2^z - 1 - x)) / (2^z * 2^z)
            = 3 := by
          rw [Nat.add_comm, Nat.mul_comm 3 (2^z * 2^z),
            Nat.add_mul_div_left _ _ hpos, Nat.div_eq_of_lt hlt]
        simp only [hilbert_d2xy]
        rw [hmod, hdiv, ih (2^z - 1 - y) (2*2^z - 1 - x) ha hb]
        simp only [Prod.mk.injEq]
        norm_num
        omega
      · simp only [if_neg hxh, if_neg hyh]
        have hxb : x - 2^z < 2^z := by omega
        have hyb : y - 2^z < 2^z := by omega
        have hlt : hilbert_xy2d z (x - 2^z) (y - 2^z) < 2^z * 2^z := by
          rw [two_pow_mul_self]; exact hilbert_xy2d_lt z _ _ hxb hyb
        have hmod : (2*(2^z * 2^z) + hilbert_xy2d z (x - 2^z) (y - 2^z)) % (2^z * 2^z)
            = hilbert_xy2d z (x - 2^z) (y - 2^z) := by
          rw [Nat.mul_comm 2 (2^z * 2^z), Nat.mul_add_mod, Nat.mod_eq_of_lt hlt]
        have hdiv : (2*(2^z * 2^z) + hilbert_xy2d z (x - 2^z) (y - 2^z)) / (2^z * 2^z) = 2 := by
          rw [Nat.add_comm, Nat.mul_comm 2 (2^z * 2^z),
            Nat.add_mul_div_left _ _ hpos, Nat.div_eq_of_lt hlt]
        simp only [hilbert_d2xy]
        rw [hmod, hdiv, ih (x - 2^z) (y - 2^z) hxb hyb]
        simp only [Prod.mk.injEq]
        norm_num
        omega

theorem tileOffset_succ (z : Nat) : tileOffset (z+1) = tileOffset z + 4^z := rfl

theorem tileOffset_mono {a b : Nat} (h : a ≤ b) : tileOffset a ≤ tileOffset b := by
  induction b with
  | zero =>
    have ha : a = 0 := by omega
    subst ha
    exact le_refl _
  | succ b ih =>
    by_cases hab : a ≤ b
    · have := ih hab
      rw [tileOffset_succ]
      exact le_trans this (Nat.le_add_right _ _)
    · have ha : a = b + 1 := by omega
      subst ha
      exact le_refl _

theorem idZoom_eq {z id : Nat} (hz : z ≤ 31) (h1 : tileOffset z ≤ id)
    (h2 : id < tileOffset (z+1)) : idZoom id = z := by
  have key : ∀ w, (tileOffset w ≤ id ↔ w ≤ z) := by
    intro w
    constructor
    · intro hw
      by_contra hgt
      have : z + 1 ≤ w := by omega
      have := tileOffset_mono this
      omega
    · intro hw
      exact le_trans (tileOffset_mono hw) h1
  have step : ∀ m, (List.range (z + 1 + m)).foldl
      (fun acc w => if tileOffset w ≤ id then w else acc) 0 = z := by
    intro m
    induction m with
    | zero =>
      rw [Nat.add_zero, List.range_succ, List.foldl_append]
      simp only [List.foldl_cons, List.foldl_nil]
      rw [if_pos ((key z).mpr (le_refl z))]
    | succ m ih =>
      have : z + 1 + (m + 1) = (z + 1 + m) + 1 := by omega
      rw [this, List.range_succ, List.foldl_append]
      simp only [List.foldl_cons, List.foldl_nil, ih]
      have : ¬ (tileOffset (z + 1 + m) ≤ id) := by
        intro hc
        have := (key (z + 1 + m)).mp hc
        omega
      rw [if_neg this]
  have h32 : (32:Nat) = z + 1 + (31 - z) := by omega
  unfold idZoom
  rw [h32]
  exact step (31 - z)

/-- C1: for every valid tile coordinate with `zoom ≤ 30` and `x, y < 2^zoom`,
decoding the tile id produced by the Hilbert codec returns exactly the original
coordinate, and the id fits in 64 bits. -/
theorem c1_tile_id_roundtrip (z x y : Nat) (hz : z ≤ 30) (hx : x < 2^z) (hy : y < 2^z) :
    id_to_zxy (zxy_to_id z x y) = (z, x, y) ∧ zxy_to_id z x y < 2^64 := by
  have hlt : hilbert_xy2d z x y < 4^z := hilbert_xy2d_lt z x y hx hy
  have hzo : idZoom (zxy_to_id z x y) = z := by
    apply idZoom_eq (by omega)
    · exact Nat.le_add_right _ _
    · rw [tileOffset_succ]
      unfold zxy_to_id
      omega
  constructor
  · have hsub : zxy_to_id z x y - tileOffset z = hilbert_xy2d z x y := by
      unfold zxy_to_id; omega
    unfold id_to_zxy
    rw [hzo, hsub, hilbert_roundtrip z x y hx hy]
  · have hmono : tileOffset z ≤ tileOffset 30 := tileOffset_mono hz
    have h4 : (4:Nat)^z ≤ 4^30 := Nat.pow_le_pow_right (by decide) hz
    have : tileOffset 30 + 4^30 < 2^64 := by decide
    unfold zxy_to_id
    omega

/-- Witness for C1 at the concrete coordinate `(3, 5, 6)`. -/
theorem c1_tile_id_roundtrip_witness :
    id_to_zxy (zxy_to_id 3 5 6) = (3, 5, 6) ∧ zxy_to_id 3 5 6 < 2^64 :=
  c1_tile_id_roundtrip 3 5 6 (by decide) (by decide) (by decide)

theorem insertFeat_perm (r : SSFeature) (l : List SSFeature) :
    List.Perm (insertFeat r l) (r :: l) := by
  induction l with
  | nil => exact List.Perm.refl _
  | cons s t ih =>
    by_cases h : r.tile_id ≤ s.tile_id
    · rw [insertFeat, if_pos h]
    · rw [insertFeat, if_neg h]
      exact List.Perm.trans (List.Perm.cons s ih) (List.Perm.swap r s t)

theorem sortFeats_perm (l : List SSFeature) : List.Perm (sortFeats l) l := by
  induction l with
  | nil => exact List.Perm.refl _
  | cons r rs ih =>
    rw [sortFeats]
    exact List.Perm.trans (insertFeat_perm r (sortFeats rs)) (List.Perm.cons r ih)

theorem insertFeat_mem {x r : SSFeature} {l : List SSFeature} (h : x ∈ insertFeat r l) :
    x = r ∨ x ∈ l := by
  have := (insertFeat_perm r l).mem_iff.mp h
  simpa using this

theorem insertFeat_sorted (r : SSFeature) (l : List SSFeature)
    (hl : List.Pairwise (fun a b => a.tile_id ≤ b.tile_id) l) :
    List.Pairwise (fun a b => a.tile_id ≤ b.tile_id) (insertFeat r l) := by
  induction l with
  | nil => simp [insertFeat]
  | cons s t ih =>
    rcases List.pairwise_cons.mp hl with ⟨hs, ht⟩
    by_cases h : r.tile_id ≤ s.tile_id
    · rw [insertFeat, if_pos h]
      refine List.pairwise_cons.mpr ⟨?_, hl⟩
      intro b hb
      rcases List.mem_cons.mp hb with hb | hb
      · subst hb; exact h
      · exact le_trans h (hs b hb)
    · rw [insertFeat, if_neg h]
      refine List.pairwise_cons.mpr ⟨?_, ih ht⟩
      intro b hb
      rcases insertFeat_mem hb with hb | hb
      · subst hb; omega
      · exact hs b hb

theorem sortFeats_sorted (l : List SSFeature) :
    List.Pairwise (fun a b => a.tile_id ≤ b.tile_id) (sortFeats l) := by
  induction l with
  | nil => simp [sortFeats]
  | cons r rs ih => exact insertFeat_sorted r (sortFeats rs) ih

theorem groupRunsGo_join (l : List SSFeature) : ∀ (k : Nat) (cur : List SSFeature),
    ((groupRunsGo k cur l).bind (fun g => g.2)) = cur.reverse ++ l := by
  induction l with
  | nil => intro k cur; simp [groupRunsGo]
  | cons s rest ih =>
    intro k cur
    by_cases h : s.tile_id = k
    · rw [groupRunsGo, if_pos h, ih]
      simp
    · rw [groupRunsGo, if_neg h]
      simp only [List.cons_bind, ih]
      simp

theorem groupRuns_join (l : List SSFeature) :
    ((groupRuns l).bind (fun g => g.2)) = l := by
  cases l with
  | nil => rfl
  | cons r rs => rw [groupRuns, groupRunsGo_join]; simp

theorem groupRunsGo_key (l : List SSFeature) : ∀ (k : Nat) (cur : List SSFeature),
    (∀ x ∈ cur, x.tile_id = k) →
    ∀ g ∈ groupRunsGo k cur l, ∀ s ∈ g.2, s.tile_id = g.1 := by
  induction l with
  | nil =>
    intro k cur hcur g hg s hs
    rw [groupRunsGo] at hg
    rcases List.mem_singleton.mp hg with rfl
    exact hcur s (by simpa using hs)
  | cons a rest ih =>
    intro k cur hcur g hg s hs
    by_cases h : a.tile_id = k
    · rw [groupRunsGo, if_pos h] at hg
      refine ih k (a :: cur) ?_ g hg s hs
      intro x hx
      rcases List.mem_cons.mp hx with rfl | hx
      · exact h
      · exact hcur x hx
    · rw [groupRunsGo, if_neg h] at hg
      rcases List.mem_cons.mp hg with rfl | hg
      · exact hcur s (by simpa using hs)
      · exact ih a.tile_id [a] (by simp) g hg s hs

theorem groupRuns_key (l : List SSFeature) :
    ∀ g ∈ groupRuns l, ∀ s ∈ g.2, s.tile_id = g.1 := by
  cases l with
  | nil => intro g hg; simp [groupRuns] at hg
  | cons r rs =>
    rw [groupRuns]
    exact groupRunsGo_key rs r.tile_id [r] (by simp)

theorem groupRunsGo_head_key (l : List SSFeature) (k : Nat) (cur : List SSFeature) :
    (groupRunsGo k cur l).head?.map Prod.fst = some k := by
  induction l generalizing k cur with
  | nil => rw [groupRunsGo]; rfl
  | cons s rest ih =>
    by_cases h : s.tile_id = k
    · rw [groupRunsGo, if_pos h]; exact ih k (s :: cur)
    · rw [groupRunsGo, if_neg h]; rfl

theorem groupRunsGo_chain (l : List SSFeature) : ∀ (k : Nat) (cur : List SSFeature),
    List.Pairwise (fun a b => a.tile_id ≤ b.tile_id) l →
    (∀ y ∈ l, k ≤ y.tile_id) →
    List.Chain' (fun a b : Nat × List SSFeature => a.1 < b.1) (groupRunsGo k cur l) := by
  induction l with
  | nil => intro k cur _ _; rw [groupRunsGo]; simp
  | cons s rest ih =>
    intro k cur hsort hge
    rcases List.pairwise_cons.mp hsort with ⟨hs, hrest⟩
    by_cases h : s.tile_id = k
    · rw [groupRunsGo, if_pos h]
      refine ih k (s :: cur) hrest ?_
      intro y hy
      rw [← h]
      exact hs y hy
    · rw [groupRunsGo, if_neg h]
      have hk : k < s.tile_id := by
        have := hge s (List.mem_cons_self s rest)
        omega
      refine List.chain'_cons'.mpr ⟨?_, ih s.tile_id [s] hrest hs⟩
      intro g hg
      have hhead := groupRunsGo_head_key rest s.tile_id [s]
      rw [hg] at hhead
      have hg1 : g.1 = s.tile_id := by simpa using hhead
      rw [hg1]
      exact hk

theorem groupRuns_chain (l : List SSFeature)
    (hsort : List.Pairwise (fun a b => a.tile_id ≤ b.tile_id) l) :
    List.Chain' (fun a b : Nat × List SSFeature => a.1 < b.1) (groupRuns l) := by
  cases l with
  | nil => simp [groupRuns]
  | cons r rs =>
    rw [groupRuns]
    rcases List.pairwise_cons.mp hsort with ⟨hs, hrest⟩
    exact groupRunsGo_chain rs r.tile_id [r] hrest hs

/-- C2: the sorting stage preserves the multiset of records, every record in a
batch carries that batch's tile id (so all records of one tile id are together
in one contiguous batch, since batch keys are strictly increasing), and batches
are emitted in (strictly, hence non-decreasing) increasing tile-id order. -/
theorem c2_sorting_stage_correct (input : List SSFeature) :
    List.Perm ((feature_sorting_stage input).bind (fun g => g.2)) input
    ∧ (∀ g ∈ feature_sorting_stage input, ∀ s ∈ g.2, s.tile_id = g.1)
    ∧ List.Chain' (fun a b : Nat × List SSFeature => a.1 < b.1)
        (feature_sorting_stage input) := by
  refine ⟨?_, ?_, ?_⟩
  · rw [feature_sorting_stage, groupRuns_join]
    exact sortFeats_perm input
  · rw [feature_sorting_stage]
    exact groupRuns_key (sortFeats input)
  · rw [feature_sorting_stage]
    exact groupRuns_chain (sortFeats input) (sortFeats_sorted input)

/-- Witness for C2 on a concrete stream: two tile ids, interleaved. -/
theorem c2_sorting_stage_correct_witness :
    List.Perm
      ((feature_sorting_stage [⟨5, [1]⟩, ⟨3, [2]⟩, ⟨5, [3]⟩]).bind (fun g => g.2))
      [⟨5, [1]⟩, ⟨3, [2]⟩, ⟨5, [3]⟩]
    ∧ (⟨3, [2]⟩ : SSFeature).tile_id = (3 : Nat)
    ∧ List.Chain' (fun a b : Nat × List SSFeature => a.1 < b.1)
        (feature_sorting_stage [⟨5, [1]⟩, ⟨3, [2]⟩, ⟨5, [3]⟩]) := by
  refine ⟨(c2_sorting_stage_correct [⟨5, [1]⟩, ⟨3, [2]⟩, ⟨5, [3]⟩]).1, ?_,
    (c2_sorting_stage_correct [⟨5, [1]⟩, ⟨3, [2]⟩, ⟨5, [3]⟩]).2.2⟩
  exact (c2_sorting_stage_correct [⟨5, [1]⟩, ⟨3, [2]⟩, ⟨5, [3]⟩]).2.1
    (3, [⟨3, [2]⟩]) (by decide) ⟨3, [2]⟩ (by decide)

theorem consumeSortedGo_ok (l : List SSFeature) : ∀ (k : Nat) (cur : List SSFeature),
    consumeSortedGo k cur (l.map Except.ok) = (groupRunsGo k cur l, none) := by
  induction l with
  | nil => intro k cur; rfl
  | cons s rest ih =>
    intro k cur
    by_cases h : s.tile_id = k
    · rw [List.map_cons, consumeSortedGo, if_pos h, groupRunsGo, if_pos h, ih]
    · rw [List.map_cons, consumeSortedGo, if_neg h, groupRunsGo, if_neg h, ih]

theorem consumeSortedGo_err (l : List (Except IOErr SSFeature)) :
    ∀ (k : Nat) (cur : List SSFeature),
    (consumeSortedGo k cur l).2 = none ↔
      (l.any (fun x => match x with | .error _ => true | .ok _ => false)) = false := by
  induction l with
  | nil => intro k cur; simp [consumeSortedGo]
  | cons a rest ih =>
    intro k cur
    match a with
    | .error e => simp [consumeSortedGo]
    | .ok s =>
      by_cases h : s.tile_id = k
      · rw [consumeSortedGo, if_pos h]
        simpa using ih k (s :: cur)
      · rw [consumeSortedGo, if_neg h]
        simpa using ih s.tile_id [s]

/-- C8: an I/O error anywhere in the external sort (spilling, or reading items
back during the merge) is fatal to the sorting stage — the stage's outcome
carries the error, never a clean success; and in the absence of errors the
stage emits exactly the grouped stream. -/
theorem c8_sort_errors_fatal (sorted : Except IOErr (List (Except IOErr SSFeature))) :
    ((feature_sorting_stage_run sorted).2 = none ↔ hasIOError sorted = false)
    ∧ (∀ l : List SSFeature, sorted = .ok (l.map Except.ok) →
        feature_sorting_stage_run sorted = (groupRuns l, none)) := by
  constructor
  · match sorted with
    | .error e => simp [feature_sorting_stage_run, hasIOError]
    | .ok stream =>
      rw [feature_sorting_stage_run, hasIOError]
      match stream with
      | [] => simp [consumeSorted]
      | .error e :: rest => simp [consumeSorted]
      | .ok r :: rest =>
        rw [consumeSorted]
        simpa using consumeSortedGo_err rest r.tile_id [r]
  · intro l hl
    subst hl
    rw [feature_sorting_stage_run]
    match l with
    | [] => rfl
    | r :: rs =>
      rw [List.map_cons, consumeSorted, consumeSortedGo_ok, groupRuns]

/-- Witness for C8: a stream with a merge-read failure makes the stage fail;
an error-free stream yields the full grouping. -/
theorem c8_sort_errors_fatal_witness :
    ((feature_sorting_stage_run (.ok [.ok ⟨1, []⟩, .error ⟨7⟩])).2 = none
      ↔ hasIOError (.ok [.ok ⟨1, []⟩, .error ⟨7⟩]) = false)
    ∧ feature_sorting_stage_run (.ok ([⟨1, []⟩, ⟨2, []⟩].map Except.ok))
        = (groupRuns [⟨1, []⟩, ⟨2, []⟩], none) :=
  ⟨(c8_sort_errors_fatal (.ok [.ok ⟨1, []⟩, .error ⟨7⟩])).1,
    (c8_sort_errors_fatal (.ok ([⟨1, []⟩, ⟨2, []⟩].map Except.ok))).2
      [⟨1, []⟩, ⟨2, []⟩] rfl⟩

/-! ### C9, C5: assertion and unsupported-kind dispatch -/

theorem processEntries_error_unsupported (mz Mz md ext buf : Nat) (mpolys : List QPoly) :
    ∀ (entries : List GeomEntry) (out : TileMap) (e : SliceErr),
    processEntries mz Mz md ext buf mpolys entries out = .error e →
    ∃ t, e = .unsupported t := by
  intro entries
  induction entries with
  | nil =>
    intro out e h
    simp [processEntries] at h
  | cons g rest ih =>
    intro out e h
    rcases g with ⟨ty, pos, len⟩
    cases ty with
    | solid => exact ih _ e h
    | surface => exact ih _ e h
    | triangle => exact ih _ e h
    | curve =>
      simp only [processEntries] at h
      exact ⟨.curve, (Except.error.inj h).symm⟩
    | point =>
      simp only [processEntries] at h
      exact ⟨.point, (Except.error.inj h).symm⟩

/-- C9: the `assert!(max_z >= min_z)` panic fires exactly when `max_z < min_z`;
when the precondition holds the function never dies on that assertion. -/
theorem c9_zoom_range_assertion (obj : EntityModel) (min_z max_z max_detail buffer_pixels : Nat) :
    slice_cityobj_geoms obj min_z max_z max_detail buffer_pixels = .error .assertViolation
      ↔ max_z < min_z := by
  constructor
  · intro h
    by_contra hge
    rw [slice_cityobj_geoms, if_neg hge] at h
    by_cases h1 : obj.multipolygon = []
    · rw [if_pos h1] at h
      exact Except.noConfusion h
    · rw [if_neg h1] at h
      by_cases h2 : obj.isFeature = false
      · rw [if_pos h2] at h
        exact Except.noConfusion h
      · rw [if_neg h2] at h
        cases hp : processEntries min_z max_z max_detail (2^max_detail)
            (2^max_detail * buffer_pixels / 256) obj.multipolygon obj.geometries [] with
        | error e =>
          rw [hp] at h
          have he : e = SliceErr.assertViolation := Except.error.inj h
          rcases processEntries_error_unsupported _ _ _ _ _ _ _ _ _ hp with ⟨t, ht⟩
          rw [he] at ht
          exact SliceErr.noConfusion ht
        | ok tiled =>
          rw [hp] at h
          exact Except.noConfusion h
  · intro h
    rw [slice_cityobj_geoms, if_pos h]

theorem processEntries_unsupported_iff (mz Mz md ext buf : Nat) (mpolys : List QPoly) :
    ∀ (entries : List GeomEntry) (out : TileMap),
    (∃ t, processEntries mz Mz md ext buf mpolys entries out = .error (.unsupported t))
      ↔ ∃ g ∈ entries, g.ty = .curve ∨ g.ty = .point := by
  intro entries
  induction entries with
  | nil =>
    intro out
    simp [processEntries]
  | cons g rest ih =>
    intro out
    rcases g with ⟨ty, pos, len⟩
    cases ty with
    | solid =>
      rw [show ∀ o, processEntries mz Mz md ext buf mpolys (⟨.solid, pos, len⟩ :: rest) o
          = processEntries mz Mz md ext buf mpolys rest
              (processEntry mz Mz md ext buf mpolys ⟨.solid, pos, len⟩ o) from fun _ => rfl]
      rw [ih _]
      constructor
      · rintro ⟨g, hg, hty⟩
        exact ⟨g, List.mem_cons_of_mem _ hg, hty⟩
      · rintro ⟨g, hg, hty⟩
        rcases List.mem_cons.mp hg with rfl | hg
        · simp at hty
        · exact ⟨g, hg, hty⟩
    | surface =>
      rw [show ∀ o, processEntries mz Mz md ext buf mpolys (⟨.surface, pos, len⟩ :: rest) o
          = processEntries mz Mz md ext buf mpolys rest
              (processEntry mz Mz md ext buf mpolys ⟨.surface, pos, len⟩ o) from fun _ => rfl]
      rw [ih _]
      constructor
      · rintro ⟨g, hg, hty⟩
        exact ⟨g, List.mem_cons_of_mem _ hg, hty⟩
      · rintro ⟨g, hg, hty⟩
        rcases List.mem_cons.mp hg with rfl | hg
        · simp at hty
        · exact ⟨g, hg, hty⟩
    | triangle =>
      rw [show ∀ o, processEntries mz Mz md ext buf mpolys (⟨.triangle, pos, len⟩ :: rest) o
          = processEntries mz Mz md ext buf mpolys rest
              (processEntry mz Mz md ext buf mpolys ⟨.triangle, pos, len⟩ o) from fun _ => rfl]
      rw [ih _]
      constructor
      · rintro ⟨g, hg, hty⟩
        exact ⟨g, List.mem_cons_of_mem _ hg, hty⟩
      · rintro ⟨g, hg, hty⟩
        rcases List.mem_cons.mp hg with rfl | hg
        · simp at hty
        · exact ⟨g, hg, hty⟩
    | curve =>
      constructor
      · intro _
        exact ⟨⟨.curve, pos, len⟩, List.mem_cons_self _ _, Or.inl rfl⟩
      · intro _
        exact ⟨.curve, rfl⟩
    | point =>
      constructor
      · intro _
        exact ⟨⟨.point, pos, len⟩, List.mem_cons_self _ _, Or.inr rfl⟩
      · intro _
        exact ⟨.point, rfl⟩

theorem processEntries_ok_of_supported (mz Mz md ext buf : Nat) (mpolys : List QPoly) :
    ∀ (entries : List GeomEntry) (out : TileMap),
    (∀ g ∈ entries, g.ty ≠ .curve ∧ g.ty ≠ .point) →
    ∃ tm, processEntries mz Mz md ext buf mpolys entries out = .ok tm := by
  intro entries
  induction entries with
  | nil => intro out _; exact ⟨out, rfl⟩
  | cons g rest ih =>
    intro out hsup
    have hg := hsup g (List.mem_cons_self _ _)
    have hrest : ∀ g ∈ rest, g.ty ≠ .curve ∧ g.ty ≠ .point :=
      fun g hg => hsup g (List.mem_cons_of_mem _ hg)
    rcases g with ⟨ty, pos, len⟩
    cases ty with
    | solid => exact ih _ hrest
    | surface => exact ih _ hrest
    | triangle => exact ih _ hrest
    | curve => simp at hg
    | point => simp at hg

/-- C5: under the entry preconditions (zoom range sane, non-empty store,
feature root), `slice_cityobj_geoms` dies with an `unsupported` panic exactly
when some geometry entry is a `Curve` or `Point`; when every entry is `Solid`,
`Surface` or `Triangle` the run completes normally — unsupported kinds are a
hard error at the feature level, never a silent skip. -/
theorem c5_curve_point_rejected (obj : EntityModel)
    (min_z max_z max_detail buffer_pixels : Nat)
    (h1 : min_z ≤ max_z) (h2 : obj.multipolygon ≠ []) (h3 : obj.isFeature = true) :
    ((∃ t, slice_cityobj_geoms obj min_z max_z max_detail buffer_pixels
        = .error (.unsupported t))
      ↔ ∃ g ∈ obj.geometries, g.ty = .curve ∨ g.ty = .point)
    ∧ ((∀ g ∈ obj.geometries, g.ty ≠ .curve ∧ g.ty ≠ .point) →
        ∃ tm, slice_cityobj_geoms obj min_z max_z max_detail buffer_pixels = .ok tm) := by
  have hge : ¬ max_z < min_z := by omega
  have h3' : ¬ obj.isFeature = false := by rw [h3]; simp
  constructor
  · rw [slice_cityobj_geoms, if_neg hge, if_neg h2, if_neg h3']
    have hiff := processEntries_unsupported_iff min_z max_z max_detail (2^max_detail)
      (2^max_detail * buffer_pixels / 256) obj.multipolygon obj.geometries []
    cases hp : processEntries min_z max_z max_detail (2^max_detail)
        (2^max_detail * buffer_pixels / 256) obj.multipolygon obj.geometries [] with
    | error e =>
      rw [hp] at hiff
      exact hiff
    | ok tiled =>
      rw [hp] at hiff
      rw [← hiff]
      constructor
      · rintro ⟨t, ht⟩
        exact Except.noConfusion ht
      · rintro ⟨t, ht⟩
        exact Except.noConfusion ht
  · intro hsup
    rcases processEntries_ok_of_supported min_z max_z max_detail (2^max_detail)
      (2^max_detail * buffer_pixels / 256) obj.multipolygon obj.geometries [] hsup
      with ⟨tm, htm⟩
    rw [slice_cityobj_geoms, if_neg hge, if_neg h2, if_neg h3', htm]
    exact ⟨tm.filter (fun kv => !kv.2.isEmpty), rfl⟩

/-- Witness for C5 at a concrete entity carrying one `Curve` entry. -/
theorem c5_curve_point_rejected_witness :
    ((∃ t, slice_cityobj_geoms ⟨[[[(0, 0), (1, 0), (0, 1)]]], true, [⟨.curve, 0, 1⟩]⟩ 0 0 0 0
        = .error (.unsupported t))
      ↔ ∃ g ∈ [(⟨.curve, 0, 1⟩ : GeomEntry)], g.ty = .curve ∨ g.ty = .point)
    ∧ ((∀ g ∈ [(⟨.curve, 0, 1⟩ : GeomEntry)], g.ty ≠ .curve ∧ g.ty ≠ .point) →
        ∃ tm, slice_cityobj_geoms ⟨[[[(0, 0), (1, 0), (0, 1)]]], true, [⟨.curve, 0, 1⟩]⟩ 0 0 0 0
          = .ok tm) :=
  c5_curve_point_rejected ⟨[[[(0, 0), (1, 0), (0, 1)]]], true, [⟨.curve, 0, 1⟩]⟩ 0 0 0 0
    (le_refl 0) (by simp) rfl

/-! ### C3, C10: ring rejection in the per-cell loop -/

theorem processCellRings_break_of_small_exterior (extent : Nat) (k1 k2 : ℚ) (xi yi : Nat)
    (r0 : QRing) (rest : List (Nat × QRing)) (mp : MPoly) (q0 : IRing)
    (h0 : ¬ r0 = [])
    (hq : postProcessRing extent xi yi (clipRingY k1 k2 r0) = some q0)
    (ha : signedRingArea q0 < 4) :
    processCellRings extent k1 k2 xi yi ((0, r0) :: rest) mp = mp := by
  rw [processCellRings, if_neg h0, hq]
  exact if_pos ⟨rfl, ha⟩

/-- C3 (amended): in the per-cell loop, (a) the fewer-than-3-points rejection is
applied to the quantized ring after closing-point removal but *before*
simplification (a ring that still has at least 3 points there is not rejected by
this test, even if simplification leaves it with fewer than 3 — see the
counterexample); (b) an exterior ring whose simplified, reversed form has
signed area below 4 square subpixels is rejected, contributing nothing to the
cell. -/
theorem c3_ring_rejection_amended :
    (∀ (extent xi yi : Nat) (clipped : QRing),
      (dropClosing (clipped.map (quantizePt extent xi yi))).length < 3 →
      postProcessRing extent xi yi clipped = none)
    ∧ (∀ (extent : Nat) (k1 k2 : ℚ) (xi yi : Nat) (r0 : QRing)
        (rest : List (Nat × QRing)) (mp : MPoly) (q0 : IRing), ¬ r0 = [] →
        postProcessRing extent xi yi (clipRingY k1 k2 r0) = some q0 →
        signedRingArea q0 < 4 →
        processCellRings extent k1 k2 xi yi ((0, r0) :: rest) mp = mp) := by
  constructor
  · intro extent xi yi clipped h
    rw [postProcessRing, if_pos h]
  · intro extent k1 k2 xi yi r0 rest mp q0 h0 hq ha
    exact processCellRings_break_of_small_exterior extent k1 k2 xi yi r0 rest mp q0 h0 hq ha

/-- C10: when a polygon's exterior ring is rejected for a cell because its
signed area after simplification is below the threshold, the `break` aborts the
ring loop, so none of the remaining (interior) rings of that polygon is added
to that tile either. -/
theorem c10_exterior_reject_aborts_holes (extent : Nat) (k1 k2 : ℚ) (xi yi : Nat)
    (r0 : QRing) (holes : List (Nat × QRing)) (mp : MPoly) (q0 : IRing)
    (h0 : ¬ r0 = [])
    (hq : postProcessRing extent xi yi (clipRingY k1 k2 r0) = some q0)
    (ha : signedRingArea q0 < 4) :
    processCellRings extent k1 k2 xi yi ((0, r0) :: holes) mp = mp :=
  processCellRings_break_of_small_exterior extent k1 k2 xi yi r0 holes mp q0 h0 hq ha

theorem wrap16_eq_self {z : ℤ} (h1 : -32768 ≤ z) (h2 : z ≤ 32767) : wrap16 z = z := by
  unfold wrap16
  omega

/-- C4 (amended): for coordinates small enough that the 16-bit differences do
not wrap, the keep-condition of the simplification pass retains an interior
point iff it does not duplicate its predecessor and either equals its successor
or the two cross-product terms are neither equal nor opposite: the
absolute-value comparison removes exactly-collinear points (`crossZ = 0`) but
also removes non-collinear points whose terms are opposite
(`T1 + T2 = 0`, `T1 ≠ T2`).  On a 3-point ring the pass keeps or drops the
middle point by exactly this condition. -/
theorem c4_simplification_keep_amended (p c n : IPt)
    (hb : ∀ v ∈ [p.1, p.2, c.1, c.2, n.1, n.2], -16384 ≤ v ∧ v ≤ 16383) :
    (keepPoint p c n = true ↔
      (p ≠ c ∧ (c = n ∨ (crossZ p c n ≠ 0 ∧
        (n.2 - p.2) * (c.1 - p.1) + (c.2 - p.2) * (n.1 - p.1) ≠ 0))))
    ∧ simplifyRing [p, c, n] = (if keepPoint p c n = true then [p, c, n] else [p, n]) := by
  have hp1 := hb p.1 (by simp)
  have hp2 := hb p.2 (by simp)
  have hc1 := hb c.1 (by simp)
  have hc2 := hb c.2 (by simp)
  have hn1 := hb n.1 (by simp)
  have hn2 := hb n.2 (by simp)
  have w1 : wrap16 (n.2 - p.2) = n.2 - p.2 := wrap16_eq_self (by omega) (by omega)
  have w2 : wrap16 (c.1 - p.1) = c.1 - p.1 := wrap16_eq_self (by omega) (by omega)
  have w3 : wrap16 (c.2 - p.2) = c.2 - p.2 := wrap16_eq_self (by omega) (by omega)
  have w4 : wrap16 (n.1 - p.1) = n.1 - p.1 := wrap16_eq_self (by omega) (by omega)
  constructor
  · rw [keepPoint, w1, w2, w3, w4]
    rw [Bool.and_eq_true, Bool.or_eq_true, bne_iff_ne, beq_iff_eq, bne_iff_ne]
    have habs : (n.2 - p.2) * (c.1 - p.1) ≠ (c.2 - p.2) * (n.1 - p.1) ∧
        (n.2 - p.2) * (c.1 - p.1) ≠ -((c.2 - p.2) * (n.1 - p.1)) ↔
        (crossZ p c n ≠ 0 ∧
          (n.2 - p.2) * (c.1 - p.1) + (c.2 - p.2) * (n.1 - p.1) ≠ 0) := by
      have hcz : crossZ p c n
          = (n.2 - p.2) * (c.1 - p.1) - (c.2 - p.2) * (n.1 - p.1) := by
        rw [crossZ]; ring
      rw [hcz]
      constructor
      · rintro ⟨ha, hb'⟩
        exact ⟨sub_ne_zero.mpr ha, fun hz => hb' (by linarith)⟩
      · rintro ⟨ha, hb'⟩
        refine ⟨sub_ne_zero.mp ha, fun hz => hb' (by linarith)⟩
    have hN : ((n.2 - p.2) * (c.1 - p.1)).natAbs ≠ ((c.2 - p.2) * (n.1 - p.1)).natAbs
        ↔ (crossZ p c n ≠ 0 ∧
            (n.2 - p.2) * (c.1 - p.1) + (c.2 - p.2) * (n.1 - p.1) ≠ 0) := by
      rw [← habs]
      constructor
      · intro h
        refine ⟨fun he => h (by rw [he]), fun he => h (by rw [he, Int.natAbs_neg])⟩
      · rintro ⟨ha1, ha2⟩ habs'
        rcases Int.natAbs_eq_natAbs_iff.mp habs' with he | he
        · exact ha1 he
        · exact ha2 he
    rw [hN]
  · by_cases hk : keepPoint p c n = true
    · rw [if_pos hk]
      simp [simplifyRing, windows3, List.filter, hk]
    · rw [if_neg hk]
      rw [Bool.not_eq_true] at hk
      simp [simplifyRing, windows3, List.filter, hk]

/-- Counterexample for C4 as stated: the point `(1,1)` is not a duplicate of
its predecessor `(0,0)` and is not collinear with `(0,0)` and `(-1,1)`
(the cross product is non-zero), yet the pass removes it, because the two
cross-product terms are `1` and `-1`, of equal absolute value. -/
theorem c4_simplification_cex :
    simplifyRing [((0 : ℤ), (0 : ℤ)), (1, 1), (-1, 1)] = [(0, 0), (-1, 1)]
    ∧ crossZ (0, 0) (1, 1) (-1, 1) ≠ 0
    ∧ ((0, 0) : IPt) ≠ (1, 1) ∧ ((1, 1) : IPt) ≠ (-1, 1) := by decide

/-- Witness for C4 (amended) at a kept corner point. -/
theorem c4_simplification_keep_amended_witness :
    (keepPoint (0, 0) (1, 0) (2, 1) = true ↔
      (((0, 0) : IPt) ≠ (1, 0) ∧ (((1, 0) : IPt) = (2, 1) ∨ (crossZ (0, 0) (1, 0) (2, 1) ≠ 0 ∧
        (((2, 1) : IPt).2 - ((0, 0) : IPt).2) * (((1, 0) : IPt).1 - ((0, 0) : IPt).1)
          + (((1, 0) : IPt).2 - ((0, 0) : IPt).2) * (((2, 1) : IPt).1 - ((0, 0) : IPt).1) ≠ 0))))
    ∧ simplifyRing [(0, 0), (1, 0), (2, 1)]
        = (if keepPoint (0, 0) (1, 0) (2, 1) = true then [(0, 0), (1, 0), (2, 1)] else [(0, 0), (2, 1)]) := by
  have h := c4_simplification_keep_amended (0, 0) (1, 0) (2, 1) (by decide)
  exact h

/-! ### C7: quantization stays within i16 -/

theorem ratTrunc_bounds {v : ℚ} {lo hi : ℤ} (hlo' : lo ≤ 0) (hhi' : 0 ≤ hi)
    (h1 : (lo : ℚ) ≤ v) (h2 : v ≤ (hi : ℚ)) : lo ≤ ratTrunc v ∧ ratTrunc v ≤ hi := by
  unfold ratTrunc
  by_cases h : 0 ≤ v
  · rw [if_pos h]
    constructor
    · have : (0 : ℤ) ≤ ⌊v⌋ := Int.floor_nonneg.mpr h
      omega
    · have hf : (⌊v⌋ : ℚ) ≤ (hi : ℚ) := le_trans (Int.floor_le v) h2
      exact_mod_cast hf
  · rw [if_neg h]
    push_neg at h
    constructor
    · have hc : (lo : ℚ) ≤ (⌈v⌉ : ℚ) := le_trans h1 (Int.le_ceil v)
      exact_mod_cast hc
    · have : ⌈v⌉ ≤ 0 := Int.ceil_le.mpr (by exact_mod_cast le_of_lt h)
      omega

/-- C7: with the pipeline configuration (`max_detail = 12`, so
`extent = 4096`, and `buffer_pixels = 5`, so `buffer = 4096*5/256 = 80`), every
coordinate within a tile's buffered clip bounds
`[xi - buffer/extent, xi + 1 + buffer/extent]` quantizes to a value for which
the saturating `as i16` cast is the plain truncation — the result lies strictly
inside the `i16` range, independent of the zoom level (the quantizer does not
depend on `zoom`), so the 16-bit coordinate type never overflows. -/
theorem c7_quantization_in_i16 (q : ℚ) (xi : Nat)
    (hlo : (xi : ℚ) - 80/4096 ≤ q) (hhi : q ≤ (xi : ℚ) + 1 + 80/4096) :
    satCast16 ((q - (xi : ℚ)) * 4096 + 1/2)
      = ratTrunc ((q - (xi : ℚ)) * 4096 + 1/2)
    ∧ -32768 ≤ ratTrunc ((q - (xi : ℚ)) * 4096 + 1/2)
    ∧ ratTrunc ((q - (xi : ℚ)) * 4096 + 1/2) ≤ 32767 := by
  have h1 : ((-80 : ℤ) : ℚ) ≤ (q - (xi : ℚ)) * 4096 + 1/2 := by
    push_cast
    linarith
  have h2 : (q - (xi : ℚ)) * 4096 + 1/2 ≤ ((4177 : ℤ) : ℚ) := by
    push_cast
    linarith
  have hb := ratTrunc_bounds (by omega) (by omega) h1 h2
  refine ⟨?_, by omega, by omega⟩
  unfold satCast16
  omega

/-- Witness for C7 at `q = 1/2`, `xi = 0`. -/
theorem c7_quantization_in_i16_witness :
    satCast16 ((1/2 - ((0 : Nat) : ℚ)) * 4096 + 1/2)
      = ratTrunc ((1/2 - ((0 : Nat) : ℚ)) * 4096 + 1/2)
    ∧ -32768 ≤ ratTrunc ((1/2 - ((0 : Nat) : ℚ)) * 4096 + 1/2)
    ∧ ratTrunc ((1/2 - ((0 : Nat) : ℚ)) * 4096 + 1/2) ≤ 32767 :=
  c7_quantization_in_i16 (1/2) 0 (by norm_num) (by norm_num)

theorem signedRingArea_lt_four (r : IRing) :
    (signedRingArea r < 4) ↔
      (((closedPairs r).map (fun ab => (ab.2.1 - ab.1.1) * (ab.1.2 + ab.2.2))).sum < 8) := by
  rw [signedRingArea, div_lt_iff (by norm_num : (0 : ℚ) < 2)]
  have h : ((4 : ℚ) * 2) = ((8 : ℤ) : ℚ) := by norm_num
  rw [h, Int.cast_lt]

set_option maxHeartbeats 2000000 in
/-- Counterexample for C3 as stated: slicing the unit square with a 3-point
collinear hole ring (zoom 0, extent 4096, buffer 0) produces, for tile
`(0,0,0)`, a polygon whose interior ring has only 2 points: the hole ring
passes the fewer-than-3-points test before simplification (it has 3 points
there), simplification removes its collinear middle point, and — being an
interior ring — it is then added to the output with 2 points, contradicting
"the ring is rejected if, after simplification, it has fewer than 3 points". -/
theorem c3_ring_rejection_cex :
    getTile (slice_polygon 0 4096 0
      [[(0, 0), (1, 0), (1, 1), (0, 1)], [(1/4, 1/4), (1/2, 1/4), (3/4, 1/4)]] [])
      (0, 0, 0)
    = [[[(0, 4096), (4096, 4096), (4096, 0), (0, 0)], [(3072, 1024), (1024, 1024)]]]
    ∧ ([((3072 : ℤ), (1024 : ℤ)), (1024, 1024)]).length < 3 := by
  refine ⟨?_, by decide⟩
  norm_num [slice_polygon, clipPolyX, clipRingX, clipRingY, closedPairs, rangeOfCoords,
    natCastU32, processCellRings, postProcessRing, quantizePt, satCast16, ratTrunc,
    dropClosing, simplifyRing, windows3, keepPoint, wrap16, signedRingArea_lt_four,
    mpolyAddExterior, mpolyAddInterior, enumRings, getTile, setTile,
    List.range_succ, List.foldl, List.filter, min_def, max_def, List.cons_ne_nil,
    Prod.mk.injEq]
  try decide

set_option maxHeartbeats 1000000 in
/-- Witness for C3 (amended): a 1-point ring is rejected by the length test;
a sub-threshold exterior square (one subpixel of area) aborts its cell. -/
theorem c3_ring_rejection_amended_witness :
    postProcessRing 4096 0 0 [((0 : ℚ), (0 : ℚ))] = none
    ∧ processCellRings 4096 0 1 0 0
        [(0, [((0 : ℚ), (0 : ℚ)), (1/4096, 0), (1/4096, 1/4096), (0, 1/4096)])] [] = [] := by
  constructor
  · exact c3_ring_rejection_amended.1 4096 0 0 [(0, 0)]
      (by norm_num [quantizePt, satCast16, ratTrunc, dropClosing])
  · exact c3_ring_rejection_amended.2 4096 0 1 0 0
      [((0 : ℚ), (0 : ℚ)), (1/4096, 0), (1/4096, 1/4096), (0, 1/4096)] [] []
      [(0, 1), (1, 1), (1, 0), (0, 0)]
      (by simp)
      (by norm_num [postProcessRing, clipRingY, closedPairs, quantizePt, satCast16,
            ratTrunc, dropClosing, simplifyRing, windows3, keepPoint, wrap16,
            List.filter, Prod.mk.injEq, List.cons_ne_nil]
          try decide)
      (by rw [signedRingArea_lt_four]; decide)

set_option maxHeartbeats 1000000 in
/-- Witness for C10: the same sub-threshold exterior square followed by a hole
ring; the hole is never added because the `break` aborts the cell. -/
theorem c10_exterior_reject_aborts_holes_witness :
    processCellRings 4096 0 1 0 0
      [(0, [((0 : ℚ), (0 : ℚ)), (1/4096, 0), (1/4096, 1/4096), (0, 1/4096)]),
       (1, [(1/4, 1/4), (1/2, 1/4), (3/4, 1/4)])] [] = [] :=
  c10_exterior_reject_aborts_holes 4096 0 1 0 0
    [((0 : ℚ), (0 : ℚ)), (1/4096, 0), (1/4096, 1/4096), (0, 1/4096)]
    [(1, [(1/4, 1/4), (1/2, 1/4), (3/4, 1/4)])] []
    [(0, 1), (1, 1), (1, 0), (0, 0)]
    (by simp)
    (by norm_num [postProcessRing, clipRingY, closedPairs, quantizePt, satCast16,
          ratTrunc, dropClosing, simplifyRing, windows3, keepPoint, wrap16,
          List.filter, Prod.mk.injEq, List.cons_ne_nil]
        try decide)
    (by rw [signedRingArea_lt_four]; decide)

set_option maxHeartbeats 4000000 in
/-- C6 (amended): slicing the square `[[0,0],[4,0],[4,4],[0,4]]` (tile-grid
units, i.e. already scaled so one unit is one tile) at zoom 1 with buffer 0 and
extent 4096 produces output for exactly the **16** tiles `(1, x, y)` with
`x, y ∈ {0,1,2,3}` — the square spans a 4×4 block of tile cells — each
receiving one full-extent square ring; no other tile receives output.  (The
four-tile outcome the spec describes would correspond to the square
`[[0,0],[2,0],[2,2],[0,2]]`, which spans the whole 2×2 zoom-1 grid.) -/
theorem c6_concrete_scenario_amended :
    (slice_polygon 1 4096 0 [[(0, 0), (4, 0), (4, 4), (0, 4)]] []).map Prod.fst
      = [(1, 0, 0), (1, 0, 1), (1, 0, 2), (1, 0, 3),
         (1, 1, 0), (1, 1, 1), (1, 1, 2), (1, 1, 3),
         (1, 2, 0), (1, 2, 1), (1, 2, 2), (1, 2, 3),
         (1, 3, 0), (1, 3, 1), (1, 3, 2), (1, 3, 3)]
    ∧ ((slice_polygon 1 4096 0 [[(0, 0), (4, 0), (4, 4), (0, 4)]] []).all
        (fun kv => isFullSquareTile 4096 kv.2)) = true := by
  constructor <;>
  · norm_num [slice_polygon, clipPolyX, clipRingX, clipRingY, closedPairs, rangeOfCoords,
      natCastU32, processCellRings, postProcessRing, quantizePt, satCast16, ratTrunc,
      dropClosing, simplifyRing, windows3, keepPoint, wrap16, signedRingArea_lt_four,
      mpolyAddExterior, mpolyAddInterior, enumRings, getTile, setTile,
      List.range_succ, List.foldl, List.filter, min_def, max_def, List.cons_ne_nil,
      Prod.mk.injEq, isFullSquareTile]
    try decide

set_option maxHeartbeats 4000000 in
/-- Counterexample for C6 as stated: the scenario claims output at exactly the
four tiles `(1,0,0), (1,1,0), (1,0,1), (1,1,1)` and none elsewhere, but the
code produces (non-empty) output at tile `(1,2,2)` as well. -/
theorem c6_concrete_scenario_cex :
    getTile (slice_polygon 1 4096 0 [[(0, 0), (4, 0), (4, 4), (0, 4)]] []) (1, 2, 2)
      ≠ [] := by
  norm_num [slice_polygon, clipPolyX, clipRingX, clipRingY, closedPairs, rangeOfCoords,
    natCastU32, processCellRings, postProcessRing, quantizePt, satCast16, ratTrunc,
    dropClosing, simplifyRing, windows3, keepPoint, wrap16, signedRingArea_lt_four,
    mpolyAddExterior, mpolyAddInterior, enumRings, getTile, setTile,
    List.range_succ, List.foldl, List.filter, min_def, max_def, List.cons_ne_nil,
    Prod.mk.injEq]
  try decide
